import Mathlib

/-!
Verification of the phonetic rhyme-search engine ("inspiration" repository).

This file gives a shallow embedding, as Lean functions, of:

* the similarity scorer `calculate_similarity`
  (from `docs/plans/2026-02-07-rhyme-annotation.md`, `backend/app/services/similarity.py`),
* the entry-ranker priority key `word_priority`
  (modelled from the specification; only its tests appear in the repository),
* the frontend search hook `useRhymeSearch`
  (`frontend/src/hooks/useRhymeSearch.ts`): result sorting, the mora filter,
  pagination and the page state machine,
* the pattern builder `buildPattern` (`frontend/src/components/PatternBuilder.tsx`),
* the search-history store `useHistory` (`frontend/src/hooks/useHistory.ts`),

and proves or refutes the specified properties of each.  Floating-point
numbers of the source are modelled as rationals; JavaScript's stable
`Array.prototype.sort` is modelled with `List.mergeSort`.
-/

namespace Inspiration

/-! ## Similarity scorer

Embedding of `backend/app/services/similarity.py` as shown in
`docs/plans/2026-02-07-rhyme-annotation.md` (lines 1186-1222).  The Python
function receives the `"-"`-joined vowel / consonant pattern strings and splits
them; the helpers `_sequence_match` and `_weighted_sequence_match` operate on
the resulting lists of phoneme strings.
-/

/-- Number of positions at which two sequences agree under start-anchored
positional alignment (position `i` of one list against position `i` of the
other; positions that exist on only one side contribute nothing). -/
def matchCount : List String → List String → ℕ
  | [], _ => 0
  | _ :: _, [] => 0
  | x :: xs, y :: ys => (if x = y then 1 else 0) + matchCount xs ys

/-- Modelled from the spec: `_sequence_match` of
`backend/app/services/similarity.py` is called by `calculate_similarity` but
its body does not appear in the repository.  Per spec §4.5 / §9 it is a
positional sequence-agreement ratio: per-position equality under
start-anchored alignment, normalized by the longer sequence's length, with
zero agreement where one side has no corresponding position.  Two empty
sequences agree completely. -/
def sequence_match (a b : List String) : ℚ :=
  if a = [] ∧ b = [] then 1
  else (matchCount a b : ℚ) / (max a.length b.length : ℕ)

/-- Weighted agreement of two already-reversed sequences: the position `j`
(counted from the original sequences' ends, `0`-based) contributes weight
`n - j` when the two sides agree there, so the final position of the original
sequences carries the largest weight `n`. -/
def weightedAgreeFrom (n : ℕ) : ℕ → List String → List String → ℕ
  | _, [], _ => 0
  | _, _ :: _, [] => 0
  | j, x :: xs, y :: ys =>
      (if x = y then n - j else 0) + weightedAgreeFrom n (j + 1) xs ys

/-- Modelled from the spec: `_weighted_sequence_match` of
`backend/app/services/similarity.py` is called by `calculate_similarity` but
its body does not appear in the repository.  Per spec §4.5 it uses the same
positional-agreement method as `_sequence_match` but suffix-weighted: the two
sequences are aligned from their ends, and a position `j` steps from the end
carries weight `n - j` (where `n` is the longer length), so tail agreement
counts for more than head agreement.  The total weight available is
`n + (n-1) + ... + 1 = n * (n+1) / 2`.  Two empty sequences agree
completely. -/
def weighted_sequence_match (a b : List String) : ℚ :=
  if a = [] ∧ b = [] then 1
  else
    let n := max a.length b.length
    (weightedAgreeFrom n 0 a.reverse b.reverse : ℚ) / ((n * (n + 1) : ℕ) / (2 : ℚ))

/-- The mora-count component of the similarity score, exactly the three-way
branch of `calculate_similarity`:  `1.0` when both counts are zero, `0.0` in
the (for naturals unreachable) `max = 0` guard, otherwise
`1 - |input_mora - result_mora| / max(input_mora, result_mora)`. -/
def moraScore (input_mora result_mora : ℕ) : ℚ :=
  if input_mora = 0 ∧ result_mora = 0 then 1
  else if max input_mora result_mora = 0 then 0
  else 1 - |(input_mora : ℚ) - (result_mora : ℚ)| / (max input_mora result_mora : ℕ)

/-- Core of `calculate_similarity`, operating on the phoneme-string lists that
the Python function obtains by splitting its four string arguments on `"-"`:
`vowel_score * 0.6 + consonant_score * 0.25 + mora_score * 0.15`. -/
def calculateSimilarityL (iv ic rv rc : List String) (input_mora result_mora : ℕ) : ℚ :=
  weighted_sequence_match iv rv * 0.6
    + sequence_match ic rc * 0.25
    + moraScore input_mora result_mora * 0.15

/-- Embedding of `iv = input_vowels.split("-") if input_vowels else []` of the Python
source: an empty pattern string yields the empty list, any other string is
split on `"-"`. -/
def splitPattern (s : String) : List String :=
  if s = "" then [] else s.splitOn "-"

/-- Function `calculate_similarity(input_vowels, input_consonants, result_vowels,
result_consonants, input_mora, result_mora)` of
`backend/app/services/similarity.py`. -/
def calculate_similarity (input_vowels input_consonants result_vowels result_consonants : String)
    (input_mora result_mora : ℕ) : ℚ :=
  calculateSimilarityL (splitPattern input_vowels) (splitPattern input_consonants)
    (splitPattern result_vowels) (splitPattern result_consonants) input_mora result_mora

/-! ## Entry ranker

`word_priority` of `backend/app/services/search_utils.py`.  Its implementation
does not appear in the repository — only its tests
(`docs/plans/2026-02-07-rhyme-annotation.md`, `TestWordPriority`, lines
824-840) and the spec §4.4 describe it — so it is modelled from the spec.
Characters are classified by Unicode code point: CJK unified ideographs
(kanji), hiragana/katakana (kana), ASCII digits, ASCII letters; everything
else counts as a non-alphanumeric symbol.
-/

/-- A CJK unified ideograph (kanji), code points `U+4E00`-`U+9FFF`. -/
def isKanjiChar (c : Char) : Bool := 0x4E00 ≤ c.toNat && c.toNat ≤ 0x9FFF

/-- Hiragana or katakana (including the long-vowel mark `U+30FC`),
code points `U+3040`-`U+30FF`. -/
def isKanaChar (c : Char) : Bool := 0x3040 ≤ c.toNat && c.toNat ≤ 0x30FF

/-- An ASCII digit `0`-`9`. -/
def isDigitChar (c : Char) : Bool := 0x30 ≤ c.toNat && c.toNat ≤ 0x39

/-- An ASCII letter `A`-`Z` or `a`-`z`. -/
def isAsciiLetterChar (c : Char) : Bool :=
  (0x41 ≤ c.toNat && c.toNat ≤ 0x5A) || (0x61 ≤ c.toNat && c.toNat ≤ 0x7A)

/-- A non-alphanumeric symbol: not kanji, not kana, not a digit, not a
letter. -/
def isSymbolChar (c : Char) : Bool :=
  !(isKanjiChar c || isKanaChar c || isDigitChar c || isAsciiLetterChar c)

/-- Modelled from the spec: the category component of the Entry Ranker key,
matching `TestWordPriority`: words containing a symbol get `-2`, words
containing a digit get `-1`, words made purely of kanji get a positive
value (`1`), all remaining words (phonetic script) get `0`. -/
def wordCategory (w : List Char) : ℤ :=
  if w.any isSymbolChar then -2
  else if w.any isDigitChar then -1
  else if w ≠ [] ∧ w.all isKanjiChar then 1
  else 0

/-- Modelled from the spec: `word_priority` of
`backend/app/services/search_utils.py` (absent from the repository; spec §4.4
plus `TestWordPriority`).  The key is compared lexicographically, larger =
higher priority: category first, then negated surface length so that shorter
words rank higher within a category. -/
def word_priority (w : List Char) : ℤ × ℤ := (wordCategory w, -(w.length : ℤ))

/-- Key `p` is a strictly higher priority key than `q` (lexicographic order on the
key pair). -/
def priorityGT (p q : ℤ × ℤ) : Prop := q.1 < p.1 ∨ (p.1 = q.1 ∧ q.2 < p.2)

instance (p q : ℤ × ℤ) : Decidable (priorityGT p q) := by
  unfold priorityGT; infer_instance

/-- The Entry Ranker orders word `w` strictly above word `w'`. -/
def ranksAbove (w w' : List Char) : Prop := priorityGT (word_priority w) (word_priority w')

instance (w w' : List Char) : Decidable (ranksAbove w w') := by
  unfold ranksAbove; infer_instance

/-! ## Frontend search hook

Embedding of `frontend/src/hooks/useRhymeSearch.ts`.  `number` scores are
modelled as rationals; JavaScript's stable `Array.prototype.sort` under a
total comparator is modelled by `List.mergeSort`, and
`String.localeCompare(·, "ja")` is modelled as code-point order on the
reading.
-/

/-- Interface `Phoneme` of `frontend/src/types/index.ts`; strings are modelled as
`List Char` so that patterns can be inspected character by character. -/
structure Phoneme where
  consonant : List Char
  vowel : List Char
  display : List Char
deriving DecidableEq, Repr

/-- Interface `PatternRhymeResult` of `frontend/src/types/index.ts`. -/
structure PatternRhymeResult where
  word : String
  reading : String
  phonemes : List Phoneme
  vowel_pattern : String
  consonant_pattern : String
  mora_count : ℕ
  score : ℚ
deriving DecidableEq, Repr

/-- Union type `SortOrder` of `frontend/src/types/index.ts`. -/
inductive SortOrder
  | relevance
  | reading_asc
  | reading_desc
  | mora_asc
  | mora_desc
deriving DecidableEq, Repr

/-- Function `sortResults` of `useRhymeSearch.ts` (lines 36-55): a stable sort of a
copy of the results by the requested key.  The `relevance` comparator is
`(a, b) => b.score - a.score` — score descending, no further tie-break. -/
def sortResults (results : List PatternRhymeResult) (so : SortOrder) :
    List PatternRhymeResult :=
  match so with
  | .relevance => results.mergeSort (fun a b => decide (b.score ≤ a.score))
  | .reading_asc => results.mergeSort (fun a b => decide (a.reading ≤ b.reading))
  | .reading_desc => results.mergeSort (fun a b => decide (b.reading ≤ a.reading))
  | .mora_asc => results.mergeSort (fun a b => decide (a.mora_count ≤ b.mora_count))
  | .mora_desc => results.mergeSort (fun a b => decide (b.mora_count ≤ a.mora_count))

/-- Interface `SearchOptions` of `useRhymeSearch.ts` (lines 22-27). -/
structure SearchOptions where
  so : SortOrder
  limit : ℕ
  moraMin : Option ℕ
  moraMax : Option ℕ
deriving DecidableEq, Repr

/-- Memo `maxMoraInResults` of `useRhymeSearch.ts` (lines 73-76): `undefined` when
there are no results, otherwise the largest `mora_count`. -/
def maxMoraInResults (allResults : List PatternRhymeResult) : Option ℕ :=
  if allResults = [] then none
  else some (allResults.foldl (fun m r => max m r.mora_count) 0)

/-- Value `effectiveMoraMax = searchOptions.moraMax ?? maxMoraInResults`
(line 78). -/
def effectiveMoraMax (allResults : List PatternRhymeResult) (moraMax : Option ℕ) :
    Option ℕ :=
  match moraMax with
  | some m => some m
  | none => maxMoraInResults allResults

/-- Memo `filteredResults` of `useRhymeSearch.ts` (lines 80-86).  Note that only
the `mora_count <= effectiveMoraMax` filter exists in the source; the
`moraMin` option is declared but never applied. -/
def filteredResults (allResults : List PatternRhymeResult) (opts : SearchOptions) :
    List PatternRhymeResult :=
  match effectiveMoraMax allResults opts.moraMax with
  | none => allResults
  | some m => allResults.filter (fun r => r.mora_count ≤ m)

/-- Value `totalPages = Math.max(1, Math.ceil(total / limit))` (line 94), with the
ceiling division written on naturals (faithful for positive `limit`). -/
def totalPages (total limit : ℕ) : ℕ := max 1 ((total + limit - 1) / limit)

/-- Memo `results = sortedResults.slice(start, start + limit)` with
`start = (page - 1) * limit` (lines 95-98). -/
def resultsPage (sorted : List PatternRhymeResult) (limit page : ℕ) :
    List PatternRhymeResult :=
  (sorted.drop ((page - 1) * limit)).take limit

/-- The page-relevant state held by `useRhymeSearch`. -/
structure SearchState where
  allResults : List PatternRhymeResult
  opts : SearchOptions
  page : ℕ
deriving DecidableEq, Repr

/-- Value `totalPages` as derived from a hook state. -/
def stateTotalPages (s : SearchState) : ℕ :=
  totalPages (filteredResults s.allResults s.opts).length s.opts.limit

/-- A `Partial<SearchOptions>` argument to `updateOptions`: each field is
either absent or an overriding value (for the two optional fields the
override may itself be `undefined`, i.e. `none`). -/
structure OptionsUpdate where
  so : Option SortOrder
  limit : Option ℕ
  moraMin : Option (Option ℕ)
  moraMax : Option (Option ℕ)
deriving DecidableEq, Repr

/-- Merge `{ ...prev, ...updates }` of `updateOptions` (line 177). -/
def applyUpdate (o : SearchOptions) (u : OptionsUpdate) : SearchOptions :=
  { so := u.so.getD o.so
    limit := u.limit.getD o.limit
    moraMin := u.moraMin.getD o.moraMin
    moraMax := u.moraMax.getD o.moraMax }

/-- Test `if (updates.limit)` — the truthiness test on line 178: present and
non-zero. -/
def limitTruthy (u : OptionsUpdate) : Bool :=
  match u.limit with
  | some l => l != 0
  | none => false

/-- The page-relevant operations exposed by `useRhymeSearch`: `goToPage`
(lines 166-173), a completed successful `search` (lines 118-164; it resets the
page to 1 and replaces the results), a failed `search` (page reset but results
kept), `updateOptions` (lines 175-183) and `reset` (lines 185-194). -/
inductive HookOp
  | goToPage (n : ℕ)
  | searchOk (rs : List PatternRhymeResult)
  | searchFailed
  | updateOptions (u : OptionsUpdate)
  | reset
deriving DecidableEq, Repr

/-- One state transition of the hook. -/
def step (s : SearchState) : HookOp → SearchState
  | .goToPage n =>
      if 1 ≤ n ∧ n ≤ stateTotalPages s then { s with page := n } else s
  | .searchOk rs => { s with allResults := rs, page := 1 }
  | .searchFailed => { s with page := 1 }
  | .updateOptions u =>
      { s with opts := applyUpdate s.opts u
               page := if limitTruthy u then 1 else s.page }
  | .reset => { s with allResults := [], page := 1 }

/-- Run a sequence of hook operations. -/
def runOps (s : SearchState) (ops : List HookOp) : SearchState := ops.foldl step s

/-! ## Pattern builder

`buildPattern` of `frontend/src/components/PatternBuilder.tsx` (lines 23-70).
Pattern strings are modelled as `List Char`.
-/

/-- The four values of the `Position` union type of `PatternBuilder.tsx`:
`anchorStart` is `"prefix"`, `anchorEnd` is `"suffix"`, `anywhere` is
`"contains"`, `exactPos` is `"exact"`. -/
inductive PatternPosition
  | anchorStart
  | anchorEnd
  | anywhere
  | exactPos
deriving DecidableEq, Repr

/-- The pattern token contributed by one phoneme in the loop body of
`buildPattern`: the geminate special case first, then the four
fixed/optional combinations (`_` is the single-position wildcard). -/
def phonemePart (p : Phoneme) (consonantFixed vowelFixed : Bool) : List Char :=
  if p.consonant = ['Q'] ∧ p.vowel = [] then
    if consonantFixed then ['Q'] else ['_']
  else
    match consonantFixed, vowelFixed with
    | false, false => ['_']
    | true, true => p.consonant ++ p.vowel
    | true, false => p.consonant ++ ['_']
    | false, true => '_' :: p.vowel

/-- The loop of `buildPattern`: `fixConsonants[i] ?? true` (out-of-range flags
default to `true`) paired positionally with the phonemes. -/
def buildParts : List Phoneme → List Bool → List Bool → List (List Char)
  | [], _, _ => []
  | p :: ps, cs, vs =>
      phonemePart p (cs.headD true) (vs.headD true) :: buildParts ps cs.tail vs.tail

/-- Function `buildPattern(phonemes, fixConsonants, fixVowels, position)`: `"*"` for an
empty phoneme list, otherwise the joined parts with run wildcards appended
according to the position. -/
def buildPattern (phonemes : List Phoneme) (fixConsonants fixVowels : List Bool)
    (position : PatternPosition) : List Char :=
  if phonemes = [] then ['*']
  else
    let core := (buildParts phonemes fixConsonants fixVowels).flatten
    match position with
    | .anchorStart => core ++ ['*']
    | .anchorEnd => '*' :: core
    | .anywhere => '*' :: (core ++ ['*'])
    | .exactPos => core

/-! ## Search history

`useHistory` of `frontend/src/hooks/useHistory.ts` (lines 53-86).
`Date.now()` is passed in as an explicit timestamp.
-/

/-- Interface `HistoryItem` of `frontend/src/types/index.ts`. -/
structure HistoryItem where
  word : String
  timestamp : ℕ
deriving DecidableEq, Repr

/-- Constant `MAX_HISTORY = 50` (`useHistory.ts` line 8). -/
def MAX_HISTORY : ℕ := 50

/-- Function `addToHistory` (lines 56-66): drop existing items with the same word,
prepend the new item, keep the first `MAX_HISTORY`. -/
def addToHistory (h : List HistoryItem) (w : String) (now : ℕ) : List HistoryItem :=
  (({ word := w, timestamp := now } : HistoryItem)
    :: h.filter (fun item => item.word != w)).take MAX_HISTORY

/-- Function `removeFromHistory` (lines 68-73). -/
def removeFromHistory (h : List HistoryItem) (w : String) : List HistoryItem :=
  h.filter (fun item => item.word != w)

/-- Function `clearHistory` (lines 75-78). -/
def clearHistory : List HistoryItem := []

/-- The three history operations. -/
inductive HistoryOp
  | add (w : String) (now : ℕ)
  | remove (w : String)
  | clear
deriving DecidableEq, Repr

/-- One history transition. -/
def stepHistory (h : List HistoryItem) : HistoryOp → List HistoryItem
  | .add w now => addToHistory h w now
  | .remove w => removeFromHistory h w
  | .clear => clearHistory

/-- Run a sequence of history operations. -/
def runHistory (h : List HistoryItem) (ops : List HistoryOp) : List HistoryItem :=
  ops.foldl stepHistory h

/-- The word passed to the most recent `addToHistory` of an operation
sequence, if any. -/
def mostRecentAdd (ops : List HistoryOp) : Option String :=
  ops.foldl (fun acc op => match op with | .add w _ => some w | _ => acc) none

/-- The ordering relation each sort key promises between adjacent output
entries: score descending for `relevance`, reading ascending/descending,
mora count ascending/descending. -/
def sortKeyRel (so : SortOrder) : PatternRhymeResult → PatternRhymeResult → Prop :=
  match so with
  | .relevance => fun a b => b.score ≤ a.score
  | .reading_asc => fun a b => a.reading ≤ b.reading
  | .reading_desc => fun a b => b.reading ≤ a.reading
  | .mora_asc => fun a b => a.mora_count ≤ b.mora_count
  | .mora_desc => fun a b => b.mora_count ≤ a.mora_count

/-! ## Concrete fixtures used by counterexamples and witnesses -/

/-- A digit-word result with score 5 (Entry Ranker category `-1`). -/
def digitEntry : PatternRhymeResult :=
  { word := "123", reading := "ひゃくにじゅうさん", phonemes := [], vowel_pattern := ""
    consonant_pattern := "", mora_count := 9, score := 5 }

/-- A kanji-word result with score 5 (Entry Ranker category `1`). -/
def kanjiEntry : PatternRhymeResult :=
  { word := "東", reading := "ひがし", phonemes := [], vowel_pattern := ""
    consonant_pattern := "", mora_count := 3, score := 5 }

/-- A one-mora result. -/
def oneMoraEntry : PatternRhymeResult :=
  { word := "手", reading := "て", phonemes := [], vowel_pattern := "e"
    consonant_pattern := "t", mora_count := 1, score := 1 }

/-- A two-mora result. -/
def twoMoraEntry : PatternRhymeResult :=
  { word := "山", reading := "やま", phonemes := [], vowel_pattern := "a-a"
    consonant_pattern := "y-m", mora_count := 2, score := 1 }

/-- Search options requesting `mora_min = 2` and no other filter. -/
def optsMoraMinTwo : SearchOptions :=
  { so := .relevance, limit := 20, moraMin := some 2, moraMax := none }

/-- A three-entry result list for the pagination witness. -/
def threeEntryList : List PatternRhymeResult := [oneMoraEntry, twoMoraEntry, kanjiEntry]

/-- The hook's initial page state with a page size of 1. -/
def limitOneState : SearchState :=
  { allResults := []
    opts := { so := .relevance, limit := 1, moraMin := none, moraMax := none }
    page := 1 }

/-- Load two results, go to page 2, then tighten `moraMax` to 1 without
changing the limit. -/
def shrinkFilterOps : List HookOp :=
  [.searchOk [oneMoraEntry, twoMoraEntry], .goToPage 2,
    .updateOptions { so := none, limit := none, moraMin := none, moraMax := some (some 1) }]

/-- Add a word to the history and then clear it. -/
def addThenClearOps : List HistoryOp := [.add "a" 0, .clear]

/-! ## Helper lemmas for the similarity scorer -/

theorem matchCount_le_length_left (a b : List String) : matchCount a b ≤ a.length := by
  induction a generalizing b with
  | nil => simp [matchCount]
  | cons x xs ih =>
    cases b with
    | nil => simp [matchCount]
    | cons y ys =>
      simp only [matchCount, List.length_cons]
      have := ih ys
      split <;> omega

theorem sequence_match_nonneg (a b : List String) : 0 ≤ sequence_match a b := by
  unfold sequence_match
  split
  · norm_num
  · exact div_nonneg (by positivity) (by positivity)

theorem sequence_match_le_one (a b : List String) : sequence_match a b ≤ 1 := by
  unfold sequence_match
  split
  · norm_num
  · rename_i h
    have hne : a ≠ [] ∨ b ≠ [] := by tauto
    have hpos : 0 < max a.length b.length := by
      rcases hne with h' | h' <;>
        simp [Nat.lt_iff_add_one_le, List.length_pos, *, le_max_iff, Nat.one_le_iff_ne_zero,
          List.length_eq_zero]
    have hle : matchCount a b ≤ max a.length b.length :=
      le_trans (matchCount_le_length_left a b) (le_max_left _ _)
    rw [div_le_one (by exact_mod_cast hpos)]
    exact_mod_cast hle

theorem weightedAgreeFrom_le (n : ℕ) (a b : List String) :
    ∀ j, 2 * weightedAgreeFrom n j a b ≤ (n - j) * (n - j + 1) := by
  induction a generalizing b with
  | nil => intro j; simp [weightedAgreeFrom]
  | cons x xs ih =>
    intro j
    cases b with
    | nil => simp [weightedAgreeFrom]
    | cons y ys =>
      simp only [weightedAgreeFrom]
      have hrec := ih ys (j + 1)
      rcases le_or_lt n j with hnj | hnj
      · have h0 : n - j = 0 := by omega
        have h1 : n - (j + 1) = 0 := by omega
        rw [h1] at hrec
        rw [h0]
        split <;> omega
      · have h1 : n - j = (n - (j + 1)) + 1 := by omega
        set d := n - (j + 1) with hd
        rw [h1]
        have expand : (d + 1) * (d + 1 + 1) = d * (d + 1) + 2 * (d + 1) := by ring
        rw [expand]
        split <;> omega

theorem weighted_sequence_match_nonneg (a b : List String) :
    0 ≤ weighted_sequence_match a b := by
  unfold weighted_sequence_match
  split
  · norm_num
  · exact div_nonneg (by positivity) (by positivity)

theorem weighted_sequence_match_le_one (a b : List String) :
    weighted_sequence_match a b ≤ 1 := by
  unfold weighted_sequence_match
  split
  · norm_num
  · rename_i h
    have hne : a ≠ [] ∨ b ≠ [] := by tauto
    set n := max a.length b.length with hn
    have hpos : 0 < n := by
      rcases hne with h' | h' <;>
        simp [hn, Nat.lt_iff_add_one_le, le_max_iff, Nat.one_le_iff_ne_zero,
          List.length_eq_zero, *]
    have hbound : 2 * weightedAgreeFrom n 0 a.reverse b.reverse ≤ n * (n + 1) := by
      have := weightedAgreeFrom_le n a.reverse b.reverse 0
      simpa using this
    have hden : (0 : ℚ) < ((n * (n + 1) : ℕ) : ℚ) / 2 := by
      have : 0 < n * (n + 1) := by positivity
      positivity
    rw [div_le_one hden, le_div_iff₀ (by norm_num : (0:ℚ) < 2)]
    have h2 : weightedAgreeFrom n 0 a.reverse b.reverse * 2 ≤ n * (n + 1) := by omega
    exact_mod_cast h2

theorem moraScore_nonneg (im rm : ℕ) : 0 ≤ moraScore im rm := by
  unfold moraScore
  split
  · norm_num
  · split
    · norm_num
    · rename_i h hmax
      have hpos : 0 < max im rm := Nat.pos_of_ne_zero hmax
      have him : (im : ℚ) ≤ (max im rm : ℕ) := by exact_mod_cast le_max_left im rm
      have hrm : (rm : ℚ) ≤ (max im rm : ℕ) := by exact_mod_cast le_max_right im rm
      have habs : |(im : ℚ) - (rm : ℚ)| ≤ ((max im rm : ℕ) : ℚ) := by
        rw [abs_le]
        constructor <;> [nlinarith [Nat.cast_nonneg (α := ℚ) rm];
          nlinarith [Nat.cast_nonneg (α := ℚ) im]]
      have hq : |(im : ℚ) - (rm : ℚ)| / ((max im rm : ℕ) : ℚ) ≤ 1 := by
        rw [div_le_one (by exact_mod_cast hpos)]
        exact habs
      linarith

theorem moraScore_le_one (im rm : ℕ) : moraScore im rm ≤ 1 := by
  unfold moraScore
  split
  · norm_num
  · split
    · norm_num
    · rename_i h hmax
      have hpos : 0 < max im rm := Nat.pos_of_ne_zero hmax
      have hq : 0 ≤ |(im : ℚ) - (rm : ℚ)| / ((max im rm : ℕ) : ℚ) :=
        div_nonneg (abs_nonneg _) (by exact_mod_cast Nat.zero_le _)
      linarith

/-- C1: for every pair of phonetic profiles, the Similarity Scorer returns
`0.60 * vowel_score + 0.25 * consonant_score + 0.15 * mora_score`, where
`mora_score = 1 - |input_mora - result_mora| / max(input_mora, result_mora)`
and is `1.0` when both mora counts are zero. -/
theorem similarity_score_composition (iv ic rv rc : String) (im rm : ℕ) :
    calculate_similarity iv ic rv rc im rm =
      0.6 * weighted_sequence_match (splitPattern iv) (splitPattern rv)
        + 0.25 * sequence_match (splitPattern ic) (splitPattern rc)
        + 0.15 * (if im = 0 ∧ rm = 0 then 1
            else 1 - |(im : ℚ) - (rm : ℚ)| / (max im rm : ℕ)) := by
  unfold calculate_similarity calculateSimilarityL moraScore
  by_cases h : im = 0 ∧ rm = 0
  · rcases h with ⟨rfl, rfl⟩
    norm_num
    ring
  · have hmax : ¬ max im rm = 0 := by
      simp only [Nat.max_eq_zero_iff]
      tauto
    rw [if_neg h, if_neg h, if_neg hmax]
    ring

/-- C4: for every pair of phonetic profiles, including the degenerate case
where both mora counts are zero, the Similarity Scorer's output lies in the
closed interval `[0, 1]`. -/
theorem similarity_score_in_unit_interval (iv ic rv rc : String) (im rm : ℕ) :
    0 ≤ calculate_similarity iv ic rv rc im rm ∧
      calculate_similarity iv ic rv rc im rm ≤ 1 := by
  unfold calculate_similarity calculateSimilarityL
  have v0 := weighted_sequence_match_nonneg (splitPattern iv) (splitPattern rv)
  have v1 := weighted_sequence_match_le_one (splitPattern iv) (splitPattern rv)
  have c0 := sequence_match_nonneg (splitPattern ic) (splitPattern rc)
  have c1 := sequence_match_le_one (splitPattern ic) (splitPattern rc)
  have m0 := moraScore_nonneg im rm
  have m1 := moraScore_le_one im rm
  constructor <;> nlinarith

theorem weightedAgreeFrom_cons (n j : ℕ) (x y : String) (xs ys : List String) :
    weightedAgreeFrom n j (x :: xs) (y :: ys)
      = (if x = y then n - j else 0) + weightedAgreeFrom n (j + 1) xs ys := rfl

theorem weightedAgreeFrom_append (n : ℕ) (xs ys as bs : List String)
    (h : xs.length = ys.length) :
    ∀ j, weightedAgreeFrom n j (xs ++ as) (ys ++ bs)
      = weightedAgreeFrom n j xs ys + weightedAgreeFrom n (j + xs.length) as bs := by
  induction xs generalizing ys with
  | nil =>
    have hys : ys = [] := by simpa using h.symm
    subst hys
    intro j
    simp [weightedAgreeFrom]
  | cons x xs ih =>
    cases ys with
    | nil => simp at h
    | cons y ys =>
      intro j
      have hlen : xs.length = ys.length := by simpa using h
      rw [List.cons_append, List.cons_append, weightedAgreeFrom_cons,
        weightedAgreeFrom_cons, ih ys hlen (j + 1), List.length_cons]
      have harg : j + 1 + xs.length = j + (xs.length + 1) := by omega
      rw [harg]
      omega

theorem weightedAgreeFrom_single_ne (n j : ℕ) {x y : String} (h : ¬ x = y) :
    weightedAgreeFrom n j [x] [y] = 0 := by
  simp [weightedAgreeFrom, h]

theorem weightedAgreeFrom_single_eq (n j : ℕ) (x : String) :
    weightedAgreeFrom n j [x] [x] = n - j := by
  simp [weightedAgreeFrom]

/-- C5: for every pair of equal-length vowel sequences identical except for a
single mismatched position, the Similarity Scorer scores the pair whose
mismatch sits at the sequence start (tail-matching) strictly higher than the
otherwise-identical pair whose mismatch sits at the sequence end
(head-matching): vowel alignment is anchored at the sequence end.  Here the
shared sequence is `a :: mid ++ [b]`, the tail-matching candidate replaces the
first vowel `a` by `x ≠ a`, and the head-matching candidate replaces the last
vowel `b` by `y ≠ b`; consonants and mora counts are the same on both
sides. -/
theorem suffix_weighting_prefers_tail_match (a b x y : String) (mid : List String)
    (c c' : List String) (im rm : ℕ) (hx : x ≠ a) (hy : y ≠ b) :
    calculateSimilarityL (a :: (mid ++ [b])) c (x :: (mid ++ [b])) c' im rm >
      calculateSimilarityL (a :: (mid ++ [b])) c (a :: (mid ++ [y])) c' im rm := by
  have hvow : weighted_sequence_match (a :: (mid ++ [b])) (x :: (mid ++ [b])) >
      weighted_sequence_match (a :: (mid ++ [b])) (a :: (mid ++ [y])) := by
    have hlen1 : (a :: (mid ++ [b])).length = mid.length + 2 := by simp
    have hlen2 : (x :: (mid ++ [b])).length = mid.length + 2 := by simp
    have hlen3 : (a :: (mid ++ [y])).length = mid.length + 2 := by simp
    unfold weighted_sequence_match
    rw [if_neg (by simp), if_neg (by simp)]
    simp only [hlen1, hlen2, hlen3, max_self]
    have hrev1 : (a :: (mid ++ [b])).reverse = (b :: mid.reverse) ++ [a] := by
      simp
    have hrev2 : (x :: (mid ++ [b])).reverse = (b :: mid.reverse) ++ [x] := by
      simp
    have hrev3 : (a :: (mid ++ [y])).reverse = (y :: mid.reverse) ++ [a] := by
      simp
    set n := mid.length + 2 with hn
    have hax : ¬ (a = x) := fun h' => hx h'.symm
    have hby : ¬ (b = y) := fun h' => hy h'.symm
    have hL : weightedAgreeFrom n 0 (a :: (mid ++ [b])).reverse (x :: (mid ++ [b])).reverse
        = weightedAgreeFrom n 0 (b :: mid.reverse) (b :: mid.reverse) := by
      rw [hrev1, hrev2,
        weightedAgreeFrom_append n (b :: mid.reverse) (b :: mid.reverse) [a] [x] rfl 0,
        weightedAgreeFrom_single_ne _ _ hax]
      omega
    have hR : weightedAgreeFrom n 0 (a :: (mid ++ [b])).reverse (a :: (mid ++ [y])).reverse
        = weightedAgreeFrom n 1 mid.reverse mid.reverse + (n - (1 + mid.length)) := by
      rw [hrev1, hrev3, List.cons_append, List.cons_append, weightedAgreeFrom_cons,
        if_neg hby, weightedAgreeFrom_append n mid.reverse mid.reverse [a] [a] rfl 1,
        weightedAgreeFrom_single_eq, List.length_reverse]
      omega
    have hLval : weightedAgreeFrom n 0 (b :: mid.reverse) (b :: mid.reverse)
        = (n - 0) + weightedAgreeFrom n 1 mid.reverse mid.reverse := by
      rw [weightedAgreeFrom_cons, if_pos rfl]
    have hlt : weightedAgreeFrom n 0 (a :: (mid ++ [b])).reverse (a :: (mid ++ [y])).reverse
        < weightedAgreeFrom n 0 (a :: (mid ++ [b])).reverse (x :: (mid ++ [b])).reverse := by
      rw [hL, hR, hLval]
      omega
    have hden : (0 : ℚ) < ((n * (n + 1) : ℕ) : ℚ) / 2 := by
      have : 0 < n * (n + 1) := by positivity
      positivity
    exact (div_lt_div_iff_of_pos_right hden).mpr (by exact_mod_cast hlt)
  unfold calculateSimilarityL
  linarith

/-- Witness for `suffix_weighting_prefers_tail_match`, at the concrete
sequences of the repository's own test `test_suffix_vowel_weighted_higher`. -/
theorem suffix_weighting_prefers_tail_match_witness :
    ("o" : String) ≠ "a" ∧ ("o" : String) ≠ "u" ∧
      calculateSimilarityL ["a", "i", "u"] ["k", "s", "t"] ["o", "i", "u"] ["n", "s", "t"] 3 3 >
        calculateSimilarityL ["a", "i", "u"] ["k", "s", "t"] ["a", "i", "o"] ["n", "s", "t"] 3 3 :=
  ⟨by decide, by decide,
    suffix_weighting_prefers_tail_match "a" "u" "o" "o" ["i"] ["k", "s", "t"]
      ["n", "s", "t"] 3 3 (by decide) (by decide)⟩

/-! ## Pattern builder: run wildcards only at the ends -/

theorem star_not_mem_phonemePart (p : Phoneme) (cf vf : Bool)
    (hc : '*' ∉ p.consonant) (hv : '*' ∉ p.vowel) : '*' ∉ phonemePart p cf vf := by
  unfold phonemePart
  split
  · split <;> simp
  · cases cf <;> cases vf <;> simp_all

theorem star_not_mem_core (phonemes : List Phoneme) (cs vs : List Bool)
    (h : ∀ p ∈ phonemes, '*' ∉ p.consonant ∧ '*' ∉ p.vowel) :
    '*' ∉ (buildParts phonemes cs vs).flatten := by
  induction phonemes generalizing cs vs with
  | nil => simp [buildParts]
  | cons p ps ih =>
    simp only [buildParts, List.flatten_cons, List.mem_append]
    push_neg
    refine ⟨star_not_mem_phonemePart p _ _ (h p (by simp)).1 (h p (by simp)).2, ?_⟩
    exact ih cs.tail vs.tail (fun q hq => h q (by simp [hq]))

/-- C7: for every phoneme list (whose consonant/vowel strings do not
themselves contain `*`), every choice of fixed/optional flags and every
position, the output of `buildPattern` holds the run wildcard `*` only at its
first and/or last character: no interior position is `*`. -/
theorem buildPattern_star_only_at_ends (phonemes : List Phoneme)
    (fixConsonants fixVowels : List Bool) (position : PatternPosition)
    (h : ∀ p ∈ phonemes, '*' ∉ p.consonant ∧ '*' ∉ p.vowel) :
    ∀ i, 0 < i → i + 1 < (buildPattern phonemes fixConsonants fixVowels position).length →
      (buildPattern phonemes fixConsonants fixVowels position).getD i ' ' ≠ '*' := by
  intro i hi hlen
  have hcore := star_not_mem_core phonemes fixConsonants fixVowels h
  have hget : ∀ (l : List Char) (j : ℕ), '*' ∉ l → j < l.length → l.getD j ' ' ≠ '*' := by
    intro l j hl hj
    rw [List.getD_eq_getElem l ' ' hj]
    exact fun heq => hl (heq ▸ List.getElem_mem hj)
  by_cases hempty : phonemes = []
  · have hB : buildPattern phonemes fixConsonants fixVowels position = ['*'] := by
      unfold buildPattern
      rw [if_pos hempty]
    rw [hB] at hlen
    simp only [List.length_cons, List.length_nil] at hlen
    omega
  · cases position with
    | anchorStart =>
      have hB : buildPattern phonemes fixConsonants fixVowels PatternPosition.anchorStart
          = (buildParts phonemes fixConsonants fixVowels).flatten ++ ['*'] := by
        unfold buildPattern
        rw [if_neg hempty]
      rw [hB] at hlen ⊢
      simp only [List.length_append, List.length_cons, List.length_nil] at hlen
      have hico : i < (buildParts phonemes fixConsonants fixVowels).flatten.length := by omega
      rw [List.getD_eq_getElem _ ' '
          (by simp only [List.length_append, List.length_cons, List.length_nil]; omega),
        List.getElem_append_left hico]
      exact fun heq => hcore (heq ▸ List.getElem_mem hico)
    | anchorEnd =>
      have hB : buildPattern phonemes fixConsonants fixVowels PatternPosition.anchorEnd
          = '*' :: (buildParts phonemes fixConsonants fixVowels).flatten := by
        unfold buildPattern
        rw [if_neg hempty]
      rw [hB] at hlen ⊢
      obtain ⟨j, rfl⟩ : ∃ j, i = j + 1 := ⟨i - 1, by omega⟩
      rw [List.getD_cons_succ]
      simp only [List.length_cons] at hlen
      exact hget _ j hcore (by omega)
    | anywhere =>
      have hB : buildPattern phonemes fixConsonants fixVowels PatternPosition.anywhere
          = '*' :: ((buildParts phonemes fixConsonants fixVowels).flatten ++ ['*']) := by
        unfold buildPattern
        rw [if_neg hempty]
      rw [hB] at hlen ⊢
      obtain ⟨j, rfl⟩ : ∃ j, i = j + 1 := ⟨i - 1, by omega⟩
      rw [List.getD_cons_succ]
      simp only [List.length_cons, List.length_append, List.length_nil] at hlen
      have hjco : j < (buildParts phonemes fixConsonants fixVowels).flatten.length := by omega
      rw [List.getD_eq_getElem _ ' '
          (by simp only [List.length_append, List.length_cons, List.length_nil]; omega),
        List.getElem_append_left hjco]
      exact fun heq => hcore (heq ▸ List.getElem_mem hjco)
    | exactPos =>
      have hB : buildPattern phonemes fixConsonants fixVowels PatternPosition.exactPos
          = (buildParts phonemes fixConsonants fixVowels).flatten := by
        unfold buildPattern
        rw [if_neg hempty]
      rw [hB] at hlen ⊢
      exact hget _ i hcore (by omega)

/-- Witness for `buildPattern_star_only_at_ends`: the single phoneme `ka` in
`contains` position builds `*ka*`, whose interior position `1` is not `*`. -/
theorem buildPattern_star_only_at_ends_witness :
    (∀ p ∈ [({ consonant := ['k'], vowel := ['a'], display := ['か'] } : Phoneme)],
        '*' ∉ p.consonant ∧ '*' ∉ p.vowel) ∧
      0 < 1 ∧
      1 + 1 < (buildPattern [{ consonant := ['k'], vowel := ['a'], display := ['か'] }]
          [] [] PatternPosition.anywhere).length ∧
      (buildPattern [{ consonant := ['k'], vowel := ['a'], display := ['か'] }]
          [] [] PatternPosition.anywhere).getD 1 ' ' ≠ '*' :=
  ⟨by decide, by decide, by decide,
    buildPattern_star_only_at_ends
      [{ consonant := ['k'], vowel := ['a'], display := ['か'] }] [] []
      PatternPosition.anywhere (by decide) 1 (by decide) (by decide)⟩

/-! ## Entry ranker: priority-key ordering -/

theorem isKanaChar_not_kanji {c : Char} (h : isKanaChar c = true) :
    isKanjiChar c = false := by
  simp only [isKanaChar, Bool.and_eq_true, decide_eq_true_eq] at h
  simp only [isKanjiChar, Bool.and_eq_false_iff, decide_eq_false_iff_not]
  left
  omega

theorem isKanaChar_not_digit {c : Char} (h : isKanaChar c = true) :
    isDigitChar c = false := by
  simp only [isKanaChar, Bool.and_eq_true, decide_eq_true_eq] at h
  simp only [isDigitChar, Bool.and_eq_false_iff, decide_eq_false_iff_not]
  right
  omega

theorem isKanjiChar_not_digit {c : Char} (h : isKanjiChar c = true) :
    isDigitChar c = false := by
  simp only [isKanjiChar, Bool.and_eq_true, decide_eq_true_eq] at h
  simp only [isDigitChar, Bool.and_eq_false_iff, decide_eq_false_iff_not]
  right
  omega

theorem isKanjiChar_not_symbol {c : Char} (h : isKanjiChar c = true) :
    isSymbolChar c = false := by
  simp [isSymbolChar, h]

theorem isKanaChar_not_symbol {c : Char} (h : isKanaChar c = true) :
    isSymbolChar c = false := by
  simp [isSymbolChar, h]

theorem wordCategory_kanji (w : List Char) (hne : w ≠ []) (hall : w.all isKanjiChar = true) :
    wordCategory w = 1 := by
  unfold wordCategory
  rw [if_neg, if_neg, if_pos ⟨hne, hall⟩]
  · intro hd
    rw [List.any_eq_true] at hd
    obtain ⟨c, hc, hcd⟩ := hd
    rw [List.all_eq_true] at hall
    have := isKanjiChar_not_digit (hall c hc)
    simp_all
  · intro hs
    rw [List.any_eq_true] at hs
    obtain ⟨c, hc, hcs⟩ := hs
    rw [List.all_eq_true] at hall
    have := isKanjiChar_not_symbol (hall c hc)
    simp_all

theorem wordCategory_kana (w : List Char) (hne : w ≠ []) (hall : w.all isKanaChar = true) :
    wordCategory w = 0 := by
  unfold wordCategory
  rw [if_neg, if_neg, if_neg]
  · rintro ⟨-, hkanji⟩
    obtain ⟨c, cs, rfl⟩ : ∃ c cs, w = c :: cs := by
      cases w with
      | nil => exact absurd rfl hne
      | cons c cs => exact ⟨c, cs, rfl⟩
    rw [List.all_eq_true] at hall hkanji
    have h1 := isKanaChar_not_kanji (hall c (by simp))
    have h2 := hkanji c (by simp)
    simp_all
  · intro hd
    rw [List.any_eq_true] at hd
    obtain ⟨c, hc, hcd⟩ := hd
    rw [List.all_eq_true] at hall
    have := isKanaChar_not_digit (hall c hc)
    simp_all
  · intro hs
    rw [List.any_eq_true] at hs
    obtain ⟨c, hc, hcs⟩ := hs
    rw [List.all_eq_true] at hall
    have := isKanaChar_not_symbol (hall c hc)
    simp_all

theorem wordCategory_digit (w : List Char) (hd : w.any isDigitChar = true)
    (hs : w.any isSymbolChar = false) : wordCategory w = -1 := by
  unfold wordCategory
  rw [if_neg (by simp [hs]), if_pos hd]

theorem wordCategory_symbol (w : List Char) (hs : w.any isSymbolChar = true) :
    wordCategory w = -2 := by
  unfold wordCategory
  rw [if_pos hs]

/-- C8: the Entry Ranker key `word_priority` is a pure total function whose
induced ranking is a strict weak ordering (irreflexive, transitive, with
transitive incomparability); purely-kanji words rank above purely-kana words,
which rank above digit-containing words, which rank above symbol-containing
words; and within one category a shorter word is never outranked by a longer
one. -/
theorem entry_ranker_key_ordering (w1 w2 w3 w4 : List Char)
    (h1 : w1 ≠ [] ∧ w1.all isKanjiChar = true)
    (h2 : w2 ≠ [] ∧ w2.all isKanaChar = true)
    (h3 : w3.any isDigitChar = true ∧ w3.any isSymbolChar = false)
    (h4 : w4.any isSymbolChar = true) :
    (∀ w, ¬ ranksAbove w w) ∧
    (∀ u v w, ranksAbove u v → ranksAbove v w → ranksAbove u w) ∧
    (∀ u v w, ¬ ranksAbove u v → ¬ ranksAbove v u →
        ¬ ranksAbove v w → ¬ ranksAbove w v → ¬ ranksAbove u w ∧ ¬ ranksAbove w u) ∧
    ranksAbove w1 w2 ∧ ranksAbove w2 w3 ∧ ranksAbove w3 w4 ∧
    (∀ v v', wordCategory v = wordCategory v' → v.length ≤ v'.length →
        ¬ ranksAbove v' v) := by
  have c1 := wordCategory_kanji w1 h1.1 h1.2
  have c2 := wordCategory_kana w2 h2.1 h2.2
  have c3 := wordCategory_digit w3 h3.1 h3.2
  have c4 := wordCategory_symbol w4 h4
  refine ⟨?_, ?_, ?_, ?_, ?_, ?_, ?_⟩
  · intro w
    simp [ranksAbove, priorityGT]
  · intro u v w huv hvw
    simp only [ranksAbove, priorityGT, word_priority] at *
    omega
  · intro u v w huv hvu hvw hwv
    simp only [ranksAbove, priorityGT, word_priority, not_or, not_and, not_lt] at *
    omega
  · simp only [ranksAbove, priorityGT, word_priority, c1, c2]
    left
    norm_num
  · simp only [ranksAbove, priorityGT, word_priority, c2, c3]
    left
    norm_num
  · simp only [ranksAbove, priorityGT, word_priority, c3, c4]
    left
    norm_num
  · intro v v' hcat hlen
    simp only [ranksAbove, priorityGT, word_priority, hcat, not_or, not_and, not_lt]
    omega

/-- Witness for `entry_ranker_key_ordering` at concrete words: a kanji word,
a kana word, a digit word, a symbol word, and the shorter-vs-longer kanji
comparison from `TestWordPriority`. -/
theorem entry_ranker_key_ordering_witness :
    ((['東'] : List Char) ≠ [] ∧ (['東'] : List Char).all isKanjiChar = true) ∧
    ((['あ'] : List Char) ≠ [] ∧ (['あ'] : List Char).all isKanaChar = true) ∧
    ((['1'] : List Char).any isDigitChar = true ∧
      (['1'] : List Char).any isSymbolChar = false) ∧
    (['☆'] : List Char).any isSymbolChar = true ∧
    ranksAbove ['東'] ['あ'] ∧ ranksAbove ['あ'] ['1'] ∧ ranksAbove ['1'] ['☆'] ∧
    ¬ ranksAbove ['東', '京', '都'] ['東'] :=
  ⟨⟨by decide, by decide⟩, ⟨by decide, by decide⟩, ⟨by decide, by decide⟩, by decide,
    (entry_ranker_key_ordering ['東'] ['あ'] ['1'] ['☆'] ⟨by decide, by decide⟩
        ⟨by decide, by decide⟩ ⟨by decide, by decide⟩ (by decide)).2.2.2.1,
    (entry_ranker_key_ordering ['東'] ['あ'] ['1'] ['☆'] ⟨by decide, by decide⟩
        ⟨by decide, by decide⟩ ⟨by decide, by decide⟩ (by decide)).2.2.2.2.1,
    (entry_ranker_key_ordering ['東'] ['あ'] ['1'] ['☆'] ⟨by decide, by decide⟩
        ⟨by decide, by decide⟩ ⟨by decide, by decide⟩ (by decide)).2.2.2.2.2.1,
    (entry_ranker_key_ordering ['東'] ['あ'] ['1'] ['☆'] ⟨by decide, by decide⟩
        ⟨by decide, by decide⟩ ⟨by decide, by decide⟩ (by decide)).2.2.2.2.2.2
      ['東'] ['東', '京', '都'] (by decide) (by decide)⟩

/-! ## Search-result sorting -/

theorem decide_le_trans {α : Type} {β : Type} [LinearOrder β] (f : α → β) (a b c : α)
    (h1 : decide (f a ≤ f b) = true) (h2 : decide (f b ≤ f c) = true) :
    decide (f a ≤ f c) = true :=
  decide_eq_true (le_trans (of_decide_eq_true h1) (of_decide_eq_true h2))

theorem decide_le_total {α : Type} {β : Type} [LinearOrder β] (f : α → β) (a b : α) :
    (decide (f a ≤ f b) || decide (f b ≤ f a)) = true := by
  rcases le_total (f a) (f b) with h | h <;> simp [h]

/-- C2 counterexample: under the `relevance` sort, two candidates with equal
scores are NOT reordered by the Entry Ranker key — `sortResults` keeps them in
their incoming order even when the Entry Ranker ranks the later one strictly
higher (the kanji word `東` outranks the digit word `123`, yet stays
second). -/
theorem relevance_sort_no_entry_ranker_tiebreak :
    sortResults [digitEntry, kanjiEntry] SortOrder.relevance = [digitEntry, kanjiEntry] ∧
    digitEntry.score = kanjiEntry.score ∧
    ranksAbove kanjiEntry.word.data digitEntry.word.data := by
  refine ⟨?_, by decide, by decide⟩
  have hpair : List.Pairwise
      (fun x y : PatternRhymeResult => (decide (y.score ≤ x.score)) = true)
      [digitEntry, kanjiEntry] := by
    simp [List.pairwise_cons, digitEntry, kanjiEntry]
  have hsub := @List.sublist_mergeSort PatternRhymeResult
    (fun a b : PatternRhymeResult => decide (b.score ≤ a.score))
    [digitEntry, kanjiEntry]
    (fun a b c h1 h2 => decide_le_trans (fun r => r.score) c b a h2 h1)
    (fun a b => decide_le_total (fun r => r.score) b a)
    [digitEntry, kanjiEntry]
    hpair (List.Sublist.refl [digitEntry, kanjiEntry])
  have hlen : ([digitEntry, kanjiEntry].mergeSort
      (fun a b : PatternRhymeResult => decide (b.score ≤ a.score))).length = 2 :=
    (List.mergeSort_perm _ _).length_eq
  exact (hsub.eq_of_length (by rw [hlen]; rfl)).symm

/-- C2 (amended): for every result list and requested sort key, `sortResults`
returns a permutation of its input ordered by the requested key (relevance =
score descending; reading ascending/descending; mora count
ascending/descending); under the relevance sort, candidates already in
score-descending order — in particular equal-score ties — keep their relative
incoming order (stable sort, no Entry Ranker tie-break); and the page slice is
the contiguous `[(page-1)*limit, (page-1)*limit + limit)` segment of the
sorted list. -/
theorem sortResults_orders_and_paginates (rs : List PatternRhymeResult) (so : SortOrder) :
    (sortResults rs so).Perm rs ∧
    List.Pairwise (sortKeyRel so) (sortResults rs so) ∧
    (∀ a b : PatternRhymeResult, [a, b].Sublist rs → b.score ≤ a.score →
        [a, b].Sublist (sortResults rs SortOrder.relevance)) ∧
    (∀ limit page, resultsPage (sortResults rs so) limit page
        = ((sortResults rs so).drop ((page - 1) * limit)).take limit) := by
  refine ⟨?_, ?_, ?_, fun _ _ => rfl⟩
  · cases so <;> exact List.mergeSort_perm _ _
  · cases so with
    | relevance =>
      have hs := @List.sorted_mergeSort PatternRhymeResult
        (fun a b : PatternRhymeResult => decide (b.score ≤ a.score))
        (fun a b c h1 h2 => decide_le_trans (fun r => r.score) c b a h2 h1)
        (fun a b => decide_le_total (fun r => r.score) b a) rs
      exact hs.imp (fun h => by simpa [sortKeyRel] using h)
    | reading_asc =>
      have hs := @List.sorted_mergeSort PatternRhymeResult
        (fun a b : PatternRhymeResult => decide (a.reading ≤ b.reading))
        (fun a b c h1 h2 => decide_le_trans (fun r => r.reading) a b c h1 h2)
        (fun a b => decide_le_total (fun r => r.reading) a b) rs
      exact hs.imp (fun h => by simpa [sortKeyRel] using h)
    | reading_desc =>
      have hs := @List.sorted_mergeSort PatternRhymeResult
        (fun a b : PatternRhymeResult => decide (b.reading ≤ a.reading))
        (fun a b c h1 h2 => decide_le_trans (fun r => r.reading) c b a h2 h1)
        (fun a b => decide_le_total (fun r => r.reading) b a) rs
      exact hs.imp (fun h => by simpa [sortKeyRel] using h)
    | mora_asc =>
      have hs := @List.sorted_mergeSort PatternRhymeResult
        (fun a b : PatternRhymeResult => decide (a.mora_count ≤ b.mora_count))
        (fun a b c h1 h2 => decide_le_trans (fun r => r.mora_count) a b c h1 h2)
        (fun a b => decide_le_total (fun r => r.mora_count) a b) rs
      exact hs.imp (fun h => by simpa [sortKeyRel] using h)
    | mora_desc =>
      have hs := @List.sorted_mergeSort PatternRhymeResult
        (fun a b : PatternRhymeResult => decide (b.mora_count ≤ a.mora_count))
        (fun a b c h1 h2 => decide_le_trans (fun r => r.mora_count) c b a h2 h1)
        (fun a b => decide_le_total (fun r => r.mora_count) b a) rs
      exact hs.imp (fun h => by simpa [sortKeyRel] using h)
  · intro a b hsub hle
    have hpair : List.Pairwise
        (fun x y : PatternRhymeResult => (decide (y.score ≤ x.score)) = true) [a, b] := by
      simp [List.pairwise_cons, hle]
    exact @List.sublist_mergeSort PatternRhymeResult
      (fun x y : PatternRhymeResult => decide (y.score ≤ x.score)) rs
      (fun x y z h1 h2 => decide_le_trans (fun r => r.score) z y x h2 h1)
      (fun x y => decide_le_total (fun r => r.score) y x)
      [a, b] hpair hsub

/-- Witness for `sortResults_orders_and_paginates`: the stability clause at
the two tied concrete entries. -/
theorem sortResults_orders_and_paginates_witness :
    [digitEntry, kanjiEntry].Sublist [digitEntry, kanjiEntry] ∧
    kanjiEntry.score ≤ digitEntry.score ∧
    [digitEntry, kanjiEntry].Sublist
      (sortResults [digitEntry, kanjiEntry] SortOrder.relevance) :=
  ⟨List.Sublist.refl _, by decide,
    (sortResults_orders_and_paginates [digitEntry, kanjiEntry] SortOrder.relevance).2.2.1
      digitEntry kanjiEntry (List.Sublist.refl _) (by decide)⟩

/-! ## Mora filter -/

/-- C3: the `mora_min` bound is never enforced.  With `moraMin = some 2` a
one-mora result survives `filteredResults` and is counted in the total: the
code only ever filters on `moraMax` (and the in-repo mora-filter design doc
requires both bounds). -/
theorem moraMin_bound_not_enforced :
    optsMoraMinTwo.moraMin = some 2 ∧
    oneMoraEntry.mora_count < 2 ∧
    filteredResults [oneMoraEntry] optsMoraMinTwo = [oneMoraEntry] ∧
    (filteredResults [oneMoraEntry] optsMoraMinTwo).length = 1 := by
  refine ⟨rfl, by decide, by decide, by decide⟩

/-! ## Pagination -/

theorem flatten_chunks_eq_take (l : List PatternRhymeResult) (limit : ℕ) :
    ∀ n, ((List.range n).map (fun i => (l.drop (i * limit)).take limit)).flatten
      = l.take (n * limit) := by
  intro n
  induction n with
  | zero => simp
  | succ n ih =>
    rw [List.range_succ, List.map_append, List.flatten_append, ih]
    simp only [List.map_cons, List.map_nil, List.flatten_cons, List.flatten_nil,
      List.append_nil]
    rw [Nat.succ_mul, List.take_add]

/-- C6: for a fixed request, concatenating the result pages in order — the
offset stepped by the page limit, i.e. pages `1, 2, …, totalPages` — yields
exactly the full ranked list: every entry once, no duplicates, no
omissions. -/
theorem pagination_concat_pages (l : List PatternRhymeResult) (limit : ℕ)
    (hpos : 0 < limit) :
    ((List.range (totalPages l.length limit)).map
      (fun i => resultsPage l limit (i + 1))).flatten = l := by
  simp only [resultsPage, Nat.add_sub_cancel]
  rw [flatten_chunks_eq_take]
  apply List.take_of_length_le
  unfold totalPages
  rcases Nat.eq_zero_or_pos l.length with h0 | h0
  · rw [h0]
    exact Nat.zero_le _
  · have hq : (l.length + limit - 1) / limit = (l.length - 1) / limit + 1 := by
      have harg : l.length + limit - 1 = (l.length - 1) + limit := by omega
      rw [harg, Nat.add_div_right _ hpos]
    rw [hq]
    have hmax : max 1 ((l.length - 1) / limit + 1) = (l.length - 1) / limit + 1 :=
      Nat.max_eq_right (Nat.succ_le_succ (Nat.zero_le _))
    rw [hmax]
    have hdm := Nat.div_add_mod (l.length - 1) limit
    have hmod := Nat.mod_lt (l.length - 1) hpos
    have hexp : ((l.length - 1) / limit + 1) * limit
        = limit * ((l.length - 1) / limit) + limit := by ring
    rw [hexp]
    set q := (l.length - 1) / limit with hqdef
    set r := (l.length - 1) % limit with hrdef
    set k := limit * q with hkdef
    omega

/-- Witness for `pagination_concat_pages`: three entries at page size 2 give
pages `[e1, e2]` and `[e3]`, whose concatenation is the full list. -/
theorem pagination_concat_pages_witness :
    0 < 2 ∧ ((List.range (totalPages threeEntryList.length 2)).map
      (fun i => resultsPage threeEntryList 2 (i + 1))).flatten = threeEntryList :=
  ⟨by decide, pagination_concat_pages threeEntryList 2 (by decide)⟩

/-! ## Page state machine -/

/-- C9 counterexample: after loading two results with page size 1, going to
page 2, and then tightening `moraMax` to 1 (an `updateOptions` call that does
not change the limit), the page number is 2 while `totalPages` is 1 — the
claimed invariant `page ≤ totalPages` is violated. -/
theorem page_can_exceed_totalPages :
    (runOps limitOneState shrinkFilterOps).page = 2 ∧
    stateTotalPages (runOps limitOneState shrinkFilterOps) = 1 := by
  refine ⟨by decide, by decide⟩

/-- C9 (amended): `totalPages` is at least 1 in every state (even with zero
results); `goToPage n` sets the page exactly when `1 ≤ n ≤ totalPages` and
leaves the state unchanged for every out-of-range `n`; and after any sequence
of operations the page number satisfies `1 ≤ page`.  (The upper bound
`page ≤ totalPages` is not an invariant: an `updateOptions` that shrinks the
filtered set without changing the limit can leave `page > totalPages`, as the
counterexample shows.) -/
theorem page_invariants :
    (∀ s : SearchState, 1 ≤ stateTotalPages s) ∧
    (∀ (s : SearchState) (n : ℕ),
      (1 ≤ n ∧ n ≤ stateTotalPages s → (step s (HookOp.goToPage n)).page = n) ∧
      (¬ (1 ≤ n ∧ n ≤ stateTotalPages s) → step s (HookOp.goToPage n) = s)) ∧
    (∀ (s : SearchState) (ops : List HookOp), 1 ≤ s.page → 1 ≤ (runOps s ops).page) := by
  refine ⟨?_, ?_, ?_⟩
  · intro s
    unfold stateTotalPages totalPages
    exact le_max_left _ _
  · intro s n
    constructor
    · intro hin
      simp only [step]
      rw [if_pos hin]
    · intro hout
      simp only [step]
      rw [if_neg hout]
  · intro s ops
    induction ops generalizing s with
    | nil => exact fun hp => hp
    | cons op ops ih =>
      intro hp
      have hstep : 1 ≤ (step s op).page := by
        cases op with
        | goToPage n =>
          simp only [step]
          split
          · rename_i hcond
            exact hcond.1
          · exact hp
        | searchOk rs => exact le_refl 1
        | searchFailed => exact le_refl 1
        | updateOptions u =>
          show 1 ≤ (if limitTruthy u then 1 else s.page)
          split
          · exact le_refl 1
          · exact hp
        | reset => exact le_refl 1
      exact ih (step s op) hstep

/-- Witness for `page_invariants` at the concrete initial state and the
concrete operation sequence of the counterexample. -/
theorem page_invariants_witness :
    1 ≤ stateTotalPages limitOneState ∧
    ((1 : ℕ) ≤ 1 ∧ 1 ≤ stateTotalPages limitOneState) ∧
    (step limitOneState (HookOp.goToPage 1)).page = 1 ∧
    1 ≤ limitOneState.page ∧
    1 ≤ (runOps limitOneState shrinkFilterOps).page :=
  ⟨page_invariants.1 limitOneState,
    ⟨by decide, by decide⟩,
    (page_invariants.2.1 limitOneState 1).1 ⟨by decide, by decide⟩,
    by decide,
    page_invariants.2.2 limitOneState shrinkFilterOps (by decide)⟩

/-! ## Search history -/

/-- C10 counterexample: after `addToHistory("a")` followed by `clearHistory`,
the most recently added word is `"a"` but the history has no first item at
all, refuting "the word passed to the most recent `addToHistory` is the first
item" over arbitrary operation sequences. -/
theorem history_most_recent_add_not_first :
    mostRecentAdd addThenClearOps = some "a" ∧
    (runHistory [] addThenClearOps).head? = none := by
  refine ⟨by decide, by decide⟩

theorem addToHistory_length_le (h : List HistoryItem) (w : String) (now : ℕ) :
    (addToHistory h w now).length ≤ MAX_HISTORY := by
  unfold addToHistory
  exact List.length_take_le _ _

theorem mem_map_word_filter {h : List HistoryItem} {w x : String}
    (hx : x ∈ (h.filter (fun item => item.word != w)).map (fun i => i.word)) :
    x ≠ w := by
  simp only [List.mem_map, List.mem_filter, bne_iff_ne] at hx
  obtain ⟨item, ⟨-, hne⟩, rfl⟩ := hx
  exact hne

theorem filter_map_word_nodup {h : List HistoryItem}
    (hnd : (h.map (fun i => i.word)).Nodup) (p : HistoryItem → Bool) :
    ((h.filter p).map (fun i => i.word)).Nodup :=
  hnd.sublist (List.Sublist.map _ (List.filter_sublist h))

theorem addToHistory_nodup (h : List HistoryItem) (w : String) (now : ℕ)
    (hnd : (h.map (fun i => i.word)).Nodup) :
    ((addToHistory h w now).map (fun i => i.word)).Nodup := by
  unfold addToHistory
  rw [List.map_take]
  refine List.Nodup.sublist (List.take_sublist _ _) ?_
  rw [List.map_cons]
  refine List.nodup_cons.mpr ⟨?_, filter_map_word_nodup hnd _⟩
  intro hmem
  exact (mem_map_word_filter hmem) rfl

/-- C10 (amended): from any valid history state (at most `MAX_HISTORY` items,
pairwise-distinct words), any sequence of add/remove/clear operations
preserves both bounds, and immediately after an `addToHistory(w)` step the
first (most recent) item is the freshly added one.  (Across a whole sequence
the "most recent add is first" clause fails once a later remove or clear
deletes it, as the counterexample shows.) -/
theorem history_invariants (h : List HistoryItem) (ops : List HistoryOp)
    (hlen : h.length ≤ MAX_HISTORY) (hnd : (h.map (fun i => i.word)).Nodup) :
    (runHistory h ops).length ≤ MAX_HISTORY ∧
    ((runHistory h ops).map (fun i => i.word)).Nodup ∧
    (∀ w now, (runHistory h (ops ++ [HistoryOp.add w now])).head?
        = some { word := w, timestamp := now }) := by
  have hmain : ∀ (ops : List HistoryOp) (h : List HistoryItem),
      h.length ≤ MAX_HISTORY → (h.map (fun i => i.word)).Nodup →
      (runHistory h ops).length ≤ MAX_HISTORY ∧
        ((runHistory h ops).map (fun i => i.word)).Nodup := by
    intro ops
    induction ops with
    | nil => exact fun h hl hn => ⟨hl, hn⟩
    | cons op ops ih =>
      intro h hl hn
      have hstep : (stepHistory h op).length ≤ MAX_HISTORY ∧
          ((stepHistory h op).map (fun i => i.word)).Nodup := by
        cases op with
        | add w now => exact ⟨addToHistory_length_le h w now, addToHistory_nodup h w now hn⟩
        | remove w =>
          exact ⟨le_trans (List.length_filter_le _ _) hl, filter_map_word_nodup hn _⟩
        | clear => simp [stepHistory, clearHistory]
      exact ih (stepHistory h op) hstep.1 hstep.2
  refine ⟨(hmain ops h hlen hnd).1, (hmain ops h hlen hnd).2, ?_⟩
  intro w now
  have happ : runHistory h (ops ++ [HistoryOp.add w now])
      = stepHistory (runHistory h ops) (HistoryOp.add w now) := by
    unfold runHistory
    rw [List.foldl_append]
    rfl
  rw [happ]
  show (addToHistory (runHistory h ops) w now).head? = _
  unfold addToHistory
  simp [MAX_HISTORY]

/-- Witness for `history_invariants`: the empty (valid) starting state, the
empty operation sequence, and one concrete add. -/
theorem history_invariants_witness :
    (([] : List HistoryItem).length ≤ MAX_HISTORY ∧
      (([] : List HistoryItem).map (fun i => i.word)).Nodup) ∧
    (runHistory [] ([] ++ [HistoryOp.add "a" 3])).head?
      = some { word := "a", timestamp := 3 } :=
  ⟨⟨by decide, by decide⟩,
    (history_invariants [] [] (by decide) (by decide)).2.2 "a" 3⟩

end Inspiration
